import Mathlib

/-!
Shallow embedding of the mididuino sources under verification:

* `src/hardware/libraries/MD/MDRandomizer.cpp` — the parameter randomizer
  with single-level undo (`MDRandomizerClass::setTrack`, `randomize`, `undo`).
* `src/hardware/libraries/Sequencer/PitchEuclid.cpp` — the Euclidean pitch
  trigger's 16th-note callback (`PitchEuclid::on16Callback`,
  `setPitchLength`, `randomizePitches`).

External collaborators (the MIDI transport, the display, the device kit
store) are modelled as explicit state and event logs.  Machine integers are
modelled as `Nat`/`Int` with explicit wrapping where the C type forces it.
-/

namespace MDRandomizer

/-- A parameter write sent to the external device layer by
`MD.setTrackParam(track, i, value)` (MDRandomizer.cpp lines 95 and 105):
the triple (track, parameter index, value). -/
abbrev SentParam := Nat × Nat × Int

/-- State of `MDRandomizerClass` together with the external state it
mutates.  `kit t i` is `MD.kit.machines[t].params[i]` (a 24-entry vector per
track), `track` is the active track, `sent` is the ordered log of
`MD.setTrackParam` calls issued so far.

`undoSlot` is modelled from the spec: the `undoStack` member's class is
declared outside `src/`; per the spec ("UndoSlot: holds at most one prior
snapshot of a ParamVector; pushing overwrites the slot; popping restores
and clears it; reset whenever the active track changes") it is a single
optional snapshot of the 24-value vector. -/
structure MDRand where
  track : Nat
  kit : Nat → Nat → Int
  undoSlot : Option (Nat → Int)
  sent : List SentParam

/-- The active track's parameter vector `MD.kit.machines[track].params`. -/
def trackParams (st : MDRand) : Nat → Int := st.kit st.track

/-- `MDRandomizerClass::setTrack` (MDRandomizer.cpp lines 73-76): switch the
active track and reset the undo slot. -/
def setTrack (st : MDRand) (t : Nat) : MDRand :=
  { st with track := t, undoSlot := none }

/-- The clamping of lines 90-93 of MDRandomizer.cpp: two sequential
comparisons, `if (param > 127) param = 127; if (param < 0) param = 0;`. -/
def clampParam (p : Int) : Int :=
  let p1 := if 127 < p then 127 else p
  if p1 < 0 then 0 else p1

/-- One iteration of the loop of MDRandomizer.cpp lines 85-97, at index `i`:
if bit `i` of the selected mask is set, read `params[i]`, add the random
draw for this iteration (`rnd i`), clamp, write back, and send the new
value to the device layer. -/
def randomizeStep (tm : Nat) (track : Nat) (rnd : Nat → Int)
    (acc : (Nat → Int) × List SentParam) (i : Nat) : (Nat → Int) × List SentParam :=
  if tm.testBit i then
    let v := clampParam (acc.1 i + rnd i)
    (Function.update acc.1 i v, acc.2 ++ [(track, i, v)])
  else acc

/-- `MDRandomizerClass::randomize` (MDRandomizer.cpp lines 78-98).

`tm` is the 24-bit mask `paramSelectMask[mask]` looked up on line 79; the
`MODEL_*` bit constants live in `MD.h`, outside `src/`, so the embedding
takes the looked-up mask itself — every valid selector corresponds to some
`tm`.  `rnd i` is the outcome of the `random(-amount, amount)` call of the
iteration for index `i`.  If `amount == 0` the function returns before the
undo push; otherwise it snapshots the vector into the undo slot and runs
the per-index loop. -/
def randomize (st : MDRand) (amount : Int) (tm : Nat) (rnd : Nat → Int) : MDRand :=
  if amount = 0 then st
  else
    let old := trackParams st
    let res := (List.range 24).foldl (randomizeStep tm st.track rnd) (old, st.sent)
    { st with kit := Function.update st.kit st.track res.1,
              undoSlot := some old,
              sent := res.2 }

/-- `MDRandomizerClass::undo` (MDRandomizer.cpp lines 100-111): if the slot
holds a snapshot, restore the full vector, clear the slot (pop semantics
modelled from the spec), push all 24 parameters to the device layer, and
report success; otherwise report failure without mutating anything.  The
returned `Bool` models the success/failure report (the GUI flash of
"UNDO" versus "UNDO XXX"). -/
def undo (st : MDRand) : MDRand × Bool :=
  match st.undoSlot with
  | some v =>
      ({ st with kit := Function.update st.kit st.track v,
                 undoSlot := none,
                 sent := st.sent ++ (List.range 24).map (fun i => (st.track, i, v i)) },
       true)
  | none => (st, false)

/-- Modelled from the spec: the library function `random(a, b)` called on
line 88 is defined outside `src/`; the spec states the delta is "a
uniformly random integer drawn from the closed interval [-amount, amount]".
We model the possible outcomes of `random a b` as a function of a seed,
ranging over exactly the closed interval `[a, b]` when `a ≤ b`. -/
def randomDraw (a b : Int) (seed : Nat) : Int :=
  a + ((seed : Int) % (b - a + 1))

theorem clampParam_nonneg (p : Int) : 0 ≤ clampParam p := by
  simp only [clampParam]
  split_ifs <;> omega

theorem clampParam_le (p : Int) : clampParam p ≤ 127 := by
  simp only [clampParam]
  split_ifs <;> omega

theorem foldl_randomizeStep_apply (tm track : Nat) (rnd : Nat → Int)
    (l : List Nat) (hl : l.Nodup) (p : Nat → Int) (s : List SentParam) (j : Nat) :
    ((l.foldl (randomizeStep tm track rnd) (p, s)).1) j
      = if j ∈ l ∧ tm.testBit j then clampParam (p j + rnd j) else p j := by
  induction l generalizing p s with
  | nil => simp
  | cons i rest ih =>
    have hnd : rest.Nodup := (List.nodup_cons.mp hl).2
    have hni : i ∉ rest := (List.nodup_cons.mp hl).1
    simp only [List.foldl_cons]
    by_cases hbit : tm.testBit i
    · simp only [randomizeStep, if_pos hbit]
      rw [ih hnd]
      by_cases hji : j = i
      · subst hji
        simp [hni, Function.update_same, hbit]
      · simp [Function.update_noteq hji, List.mem_cons, hji]
    · simp only [randomizeStep, if_neg hbit]
      rw [ih hnd]
      by_cases hji : j = i
      · subst hji
        simp [hni, hbit]
      · simp [List.mem_cons, hji]

theorem randomize_params_apply (st : MDRand) (amount : Int) (tm : Nat)
    (rnd : Nat → Int) (h : amount ≠ 0) (j : Nat) :
    trackParams (randomize st amount tm rnd) j
      = if j < 24 ∧ tm.testBit j then clampParam (trackParams st j + rnd j)
        else trackParams st j := by
  unfold randomize
  rw [if_neg h]
  simp only [trackParams, Function.update_same]
  rw [foldl_randomizeStep_apply tm st.track rnd (List.range 24) (List.nodup_range 24) _ _ j]
  simp [List.mem_range]

theorem randomize_track (st : MDRand) (amount : Int) (tm : Nat) (rnd : Nat → Int) :
    (randomize st amount tm rnd).track = st.track := by
  unfold randomize
  split_ifs <;> rfl

theorem randomize_undoSlot (st : MDRand) (amount : Int) (tm : Nat)
    (rnd : Nat → Int) (h : amount ≠ 0) :
    (randomize st amount tm rnd).undoSlot = some (trackParams st) := by
  unfold randomize
  rw [if_neg h]

theorem undo_of_slot (st : MDRand) (v : Nat → Int) (h : st.undoSlot = some v) :
    (undo st).2 = true ∧ trackParams (undo st).1 = v := by
  unfold undo
  rw [h]
  exact ⟨rfl, by simp [trackParams, Function.update_same]⟩

/-- C1: for any single call to `randomize` with `amount > 0` and a valid mask
selector (any looked-up mask `tm`), a subsequent `undo` on the same track
succeeds and restores the parameter vector to exactly the values it held
immediately before the `randomize` call. -/
theorem randomize_undo_restores (st : MDRand) (amount : Int) (tm : Nat)
    (rnd : Nat → Int) (h : 0 < amount) :
    (undo (randomize st amount tm rnd)).2 = true
    ∧ trackParams (undo (randomize st amount tm rnd)).1 = trackParams st := by
  have hne : amount ≠ 0 := by omega
  exact undo_of_slot _ _ (randomize_undoSlot st amount tm rnd hne)

theorem randomize_undo_restores_witness :
    (undo (randomize ⟨0, fun _ _ => 64, none, []⟩ 5 4095 (fun _ => 3))).2 = true
    ∧ trackParams (undo (randomize ⟨0, fun _ _ => 64, none, []⟩ 5 4095 (fun _ => 3))).1
        = trackParams ⟨0, fun _ _ => 64, none, []⟩ :=
  randomize_undo_restores ⟨0, fun _ _ => 64, none, []⟩ 5 4095 (fun _ => 3) (by decide)

/-- C2: for every `amount ≥ 0`, every selection mask and every possible
random outcome, if every entry of the 24-entry vector lies in [0,127]
before `randomize`, then every entry lies in [0,127] after `randomize`. -/
theorem randomize_params_in_range (st : MDRand) (amount : Int) (tm : Nat)
    (rnd : Nat → Int) (_hamt : 0 ≤ amount)
    (hpre : ∀ i, i < 24 → 0 ≤ trackParams st i ∧ trackParams st i ≤ 127) :
    ∀ i, i < 24 → 0 ≤ trackParams (randomize st amount tm rnd) i
      ∧ trackParams (randomize st amount tm rnd) i ≤ 127 := by
  intro i hi
  by_cases h0 : amount = 0
  · unfold randomize
    rw [if_pos h0]
    exact hpre i hi
  · rw [randomize_params_apply st amount tm rnd h0 i]
    split_ifs
    · exact ⟨clampParam_nonneg _, clampParam_le _⟩
    · exact hpre i hi

theorem randomize_params_in_range_witness :
    0 ≤ trackParams (randomize ⟨2, fun _ _ => 100, none, []⟩ 40 16777215 (fun _ => 35)) 0
    ∧ trackParams (randomize ⟨2, fun _ _ => 100, none, []⟩ 40 16777215 (fun _ => 35)) 0 ≤ 127 :=
  randomize_params_in_range ⟨2, fun _ _ => 100, none, []⟩ 40 16777215 (fun _ => 35)
    (by decide) (fun i _ => ⟨(by decide : (0:Int) ≤ 100), (by decide : (100:Int) ≤ 127)⟩)
    0 (by decide)

/-- C3: after two consecutive `randomize` calls with positive amounts on the
same track, a single `undo` succeeds and restores the vector to the state
held immediately before the second call; the undo slot after the second
call holds only the pre-second-call snapshot (the pre-first-call snapshot
was overwritten by the second push, hence permanently discarded). -/
theorem second_randomize_single_level_undo (st : MDRand) (a1 a2 : Int)
    (tm1 tm2 : Nat) (r1 r2 : Nat → Int) (_h1 : 0 < a1) (h2 : 0 < a2) :
    (undo (randomize (randomize st a1 tm1 r1) a2 tm2 r2)).2 = true
    ∧ trackParams (undo (randomize (randomize st a1 tm1 r1) a2 tm2 r2)).1
        = trackParams (randomize st a1 tm1 r1)
    ∧ (randomize (randomize st a1 tm1 r1) a2 tm2 r2).undoSlot
        = some (trackParams (randomize st a1 tm1 r1)) := by
  have h2ne : a2 ≠ 0 := by omega
  have hslot := randomize_undoSlot (randomize st a1 tm1 r1) a2 tm2 r2 h2ne
  have hu := undo_of_slot _ _ hslot
  exact ⟨hu.1, hu.2, hslot⟩

theorem second_randomize_single_level_undo_witness :
    (undo (randomize (randomize ⟨1, fun _ _ => 10, none, []⟩ 2 7 (fun _ => 1)) 9 7 (fun _ => 4))).2 = true
    ∧ trackParams (undo (randomize (randomize ⟨1, fun _ _ => 10, none, []⟩ 2 7 (fun _ => 1)) 9 7 (fun _ => 4))).1
        = trackParams (randomize ⟨1, fun _ _ => 10, none, []⟩ 2 7 (fun _ => 1))
    ∧ (randomize (randomize ⟨1, fun _ _ => 10, none, []⟩ 2 7 (fun _ => 1)) 9 7 (fun _ => 4)).undoSlot
        = some (trackParams (randomize ⟨1, fun _ _ => 10, none, []⟩ 2 7 (fun _ => 1))) :=
  second_randomize_single_level_undo ⟨1, fun _ _ => 10, none, []⟩ 2 9 7 7
    (fun _ => 1) (fun _ => 4) (by decide) (by decide)

/-- C5: for `amount > 0`, the delta added to each selected parameter is one
possible outcome of the modelled `random(-amount, amount)` draw: every
outcome lies in the closed interval [-amount, amount], the delta `+amount`
itself is attained (at the seed `2*amount`), and for each index selected by
the mask the new parameter is exactly the old one plus the iteration's
draw, clamped. -/
theorem randomize_delta_uniform_range (amount : Int) (h : 0 < amount) :
    (∀ seed : Nat, -amount ≤ randomDraw (-amount) amount seed
        ∧ randomDraw (-amount) amount seed ≤ amount)
    ∧ randomDraw (-amount) amount (2 * amount).toNat = amount
    ∧ (∀ (st : MDRand) (tm : Nat) (rnd : Nat → Int) (i : Nat), i < 24 →
        tm.testBit i = true →
        trackParams (randomize st amount tm rnd) i
          = clampParam (trackParams st i + rnd i)) := by
  have hd : (0:Int) < amount - (-amount) + 1 := by omega
  refine ⟨?_, ?_, ?_⟩
  · intro seed
    have h1 : 0 ≤ (seed : Int) % (amount - (-amount) + 1) :=
      Int.emod_nonneg _ (by omega)
    have h2 : (seed : Int) % (amount - (-amount) + 1) < amount - (-amount) + 1 :=
      Int.emod_lt_of_pos _ hd
    unfold randomDraw
    omega
  · unfold randomDraw
    have ht : ((2 * amount).toNat : Int) = 2 * amount := Int.toNat_of_nonneg (by omega)
    rw [ht, Int.emod_eq_of_lt (by omega) (by omega)]
    omega
  · intro st tm rnd i hi hbit
    rw [randomize_params_apply st amount tm rnd (by omega) i, if_pos ⟨hi, hbit⟩]

theorem randomize_delta_uniform_range_witness :
    randomDraw (-3) 3 (2 * (3:Int)).toNat = 3 :=
  (randomize_delta_uniform_range 3 (by decide)).2.1

/-- C6: `undo` with an empty undo slot reports failure and mutates nothing:
the whole state — the active track's 24-entry vector, the kit, the slot,
and the log of writes sent to the external device layer — is unchanged. -/
theorem undo_empty_slot_fails (st : MDRand) (h : st.undoSlot = none) :
    undo st = (st, false) := by
  unfold undo
  rw [h]

theorem undo_empty_slot_fails_witness :
    undo ⟨1, fun _ _ => 7, none, []⟩ = (⟨1, fun _ _ => 7, none, []⟩, false) :=
  undo_empty_slot_fails ⟨1, fun _ _ => 7, none, []⟩ rfl

/-- C7: `setTrack` always clears the undo slot, so whatever the prior state
(in particular after any sequence of `randomize` calls), an `undo`
performed right after `setTrack` reports failure and changes nothing. -/
theorem setTrack_clears_undo (st : MDRand) (t : Nat) :
    (setTrack st t).undoSlot = none
    ∧ undo (setTrack st t) = (setTrack st t, false) :=
  ⟨rfl, rfl⟩

/-- C8: `randomize` with `amount == 0` is a complete no-op for every mask and
every random outcome: the state — vector, undo slot and device-write log —
is returned unchanged (the early return precedes the undo push). -/
theorem randomize_zero_amount_noop (st : MDRand) (tm : Nat) (rnd : Nat → Int) :
    randomize st 0 tm rnd = st := rfl

end MDRandomizer

namespace PitchEuclid

/-- A MIDI event sent through `MidiUart` by the callback:
`sendNoteOn(track, pitch, velocity)` or `sendNoteOff(track, pitch, velocity)`. -/
inductive MidiEv where
  | noteOn (track pitch velocity : Nat) : MidiEv
  | noteOff (track pitch velocity : Nat) : MidiEv
deriving DecidableEq

/-- Whether an event is a note-on. -/
def isNoteOn : MidiEv → Bool
  | MidiEv.noteOn _ _ _ => true
  | MidiEv.noteOff _ _ _ => false

/-- State of `PitchEuclid` relevant to the 16th-note callback, including the
two function-local `static` variables `lastPitch` (255 = no note sounding)
and `lastLength` (remaining note-off countdown in ticks).  All fields are
`uint8_t` in the source; the pitch buffer is a list read with default 0. -/
structure PEState where
  basePitch : Nat
  pitches : List Nat
  pitches_idx : Nat
  pitches_len : Nat
  noteLength : Nat
  mdTrack : Nat
  muted : Bool
  lastPitch : Nat
  lastLength : Nat
deriving DecidableEq

/-- `PitchEuclid::randomizePitches` (PitchEuclid.cpp lines 60-64): refill
indices `0..pitches_len-1` of the pitch buffer with scale draws.  The draws
come from `randomScalePitch(currentScale, octaves)`, which is declared
outside `src/`; the oracle `rnd i` is the draw of iteration `i`.  Buffer
entries beyond `pitches_len` keep their old values. -/
def randomizePitches (st : PEState) (rnd : Nat → Nat) : PEState :=
  { st with pitches := (List.range st.pitches_len).map rnd ++ st.pitches.drop st.pitches_len }

/-- `PitchEuclid::setPitchLength` (PitchEuclid.cpp lines 55-58): set
`pitches_len` and immediately randomize the buffer. -/
def setPitchLength (st : PEState) (len : Nat) (rnd : Nat → Nat) : PEState :=
  randomizePitches { st with pitches_len := len } rnd

/-- The pitch computed on a hit step (PitchEuclid.cpp line 87):
`uint8_t pitch = basePitch + pitches[pitches_idx]`, with `uint8_t`
wrap-around. -/
def hitPitch (st : PEState) : Nat :=
  (st.basePitch + st.pitches.getD st.pitches_idx 0) % 256

/-- `PitchEuclid::on16Callback` (PitchEuclid.cpp lines 66-102).  `isHit` is
the value of `track.isHit(MidiClock.div16th_counter)` (the EuclidTrack
pattern query, declared outside `src/`, taken as an input covering both
outcomes).  Returns the updated state and the ordered list of MIDI events
sent during the tick, or `none` when the tick would evaluate
`(pitches_idx + 1) % pitches_len` with `pitches_len == 0` (division by
zero, undefined behavior in the C source). -/
def on16Callback (st : PEState) (isHit : Bool) : Option (PEState × List MidiEv) :=
  let lastLength1 := if 0 < st.lastLength then st.lastLength - 1 else st.lastLength
  let off1 := st.lastPitch ≤ 127 ∧ (st.noteLength = 0 ∨ lastLength1 = 0)
  let evs1 := if off1 then [MidiEv.noteOff st.mdTrack st.lastPitch 0] else []
  let lastPitch1 := if off1 then 255 else st.lastPitch
  if st.noteLength = 0 then
    some ({ st with lastLength := lastLength1, lastPitch := lastPitch1 }, evs1)
  else if isHit then
    let pitch := hitPitch st
    let off2 := lastPitch1 ≤ 127
    let evs2 := evs1 ++ (if off2 then [MidiEv.noteOff st.mdTrack lastPitch1 0] else [])
    let lastPitch2 := if off2 then 255 else lastPitch1
    let fireOn := pitch ≤ 127 ∧ st.muted = false
    let evs3 := evs2 ++ (if fireOn then [MidiEv.noteOn st.mdTrack pitch 100] else [])
    let lastPitch3 := if fireOn then pitch else lastPitch2
    let lastLength3 := if fireOn then st.noteLength else lastLength1
    if st.pitches_len = 0 then none
    else
      some ({ st with lastLength := lastLength3, lastPitch := lastPitch3,
                      pitches_idx := (st.pitches_idx + 1) % st.pitches_len }, evs3)
  else
    some ({ st with lastLength := lastLength1, lastPitch := lastPitch1 }, evs1)

/-- The events sent during one tick, discarding the state. -/
def on16Events (st : PEState) (isHit : Bool) : Option (List MidiEv) :=
  (on16Callback st isHit).map (fun r => r.2)

theorem on16Events_of_noteLength_zero (st : PEState) (hit : Bool)
    (h : st.noteLength = 0) :
    on16Events st hit
      = some (if st.lastPitch ≤ 127
              then [MidiEv.noteOff st.mdTrack st.lastPitch 0] else []) := by
  simp [on16Events, on16Callback, h]

theorem on16Callback_isSome (st : PEState) (hit : Bool) (h : st.pitches_len ≠ 0) :
    (on16Callback st hit).isSome = true := by
  simp only [on16Callback]
  split_ifs <;> simp_all

theorem on16Callback_pitches (st : PEState) (hit : Bool) (st2 : PEState)
    (evs : List MidiEv) (h : on16Callback st hit = some (st2, evs)) :
    st2.pitches_len = st.pitches_len
    ∧ (st2.pitches_idx = st.pitches_idx
       ∨ st2.pitches_idx = (st.pitches_idx + 1) % st.pitches_len) := by
  simp only [on16Callback] at h
  split_ifs at h
  all_goals first
    | exact Option.noConfusion h
    | (simp only [Option.some.injEq, Prod.mk.injEq] at h
       obtain ⟨h1, h2⟩ := h
       subst h1
       simp)

/-- C4 counterexample: with `noteLength == 0` and a previously sounding note
(`lastPitch = 60`), the tick handler does emit an event — the note-off of
lines 74-79 of PitchEuclid.cpp — so the claim that it never emits a
note-on or a note-off regardless of the prior sounding state is false. -/
theorem noteLength_zero_emits_noteOff_cex :
    (⟨60, [0, 0, 0, 0], 0, 4, 0, 0, false, 60, 0⟩ : PEState).noteLength = 0
    ∧ on16Events ⟨60, [0, 0, 0, 0], 0, 4, 0, 0, false, 60, 0⟩ true
        = some [MidiEv.noteOff 0 60 0] := by
  constructor
  · rfl
  · decide

/-- C4 amended: when `noteLength == 0`, the tick handler never emits a
note-on; the only event it can emit is a single note-off, emitted exactly
when a note was still sounding (`lastPitch ≤ 127`), and nothing is emitted
otherwise — for every tick, hit or not. -/
theorem noteLength_zero_no_noteOn (st : PEState) (hit : Bool)
    (h : st.noteLength = 0) :
    on16Events st hit
      = some (if st.lastPitch ≤ 127
              then [MidiEv.noteOff st.mdTrack st.lastPitch 0] else [])
    ∧ ∀ e ∈ (on16Events st hit).getD [], isNoteOn e = false := by
  have hev := on16Events_of_noteLength_zero st hit h
  refine ⟨hev, ?_⟩
  rw [hev]
  intro e he
  split_ifs at he with h1
  · simp only [List.getD_eq_getElem?_getD, Option.getD_some] at he
    simp only [List.mem_singleton] at he
    subst he
    rfl
  · simp at he

theorem noteLength_zero_no_noteOn_witness :
    on16Events ⟨60, [0, 0, 0, 0], 0, 4, 0, 0, false, 255, 0⟩ false = some [] :=
  (noteLength_zero_no_noteOn ⟨60, [0, 0, 0, 0], 0, 4, 0, 0, false, 255, 0⟩ false rfl).1

/-- C9: within a single tick, if a note was sounding before the tick
(`lastPitch ≤ 127`) and the handler emits a note-on, then the tick's event
list is exactly the note-off of the previously sounding note followed by
the note-on: the note-off always precedes the note-on, and the handler
never leaves two of its own notes sounding at once (the single `lastPitch`
register holds only the new note afterwards). -/
theorem noteOff_before_noteOn (st : PEState) (hit : Bool) (st2 : PEState)
    (evs : List MidiEv) (e : MidiEv)
    (h : on16Callback st hit = some (st2, evs))
    (hlp : st.lastPitch ≤ 127) (he : e ∈ evs) (hOn : isNoteOn e = true) :
    evs = [MidiEv.noteOff st.mdTrack st.lastPitch 0, e] := by
  by_cases hnl : st.noteLength = 0
  · -- engine disabled: only a note-off can be emitted, contradicting hOn
    simp [on16Callback, hnl, hlp] at h
    obtain ⟨hst, hevs⟩ := h
    subst hevs
    simp at he
    subst he
    exact Bool.noConfusion hOn
  · cases hit with
    | false =>
      -- no hit: only the countdown note-off can be emitted
      simp [on16Callback, hnl] at h
      obtain ⟨hst, hevs⟩ := h
      subst hevs
      exfalso
      split_ifs at he <;> simp at he <;> subst he <;> exact Bool.noConfusion hOn
    | true =>
      by_cases hlen : st.pitches_len = 0
      · simp [on16Callback, hnl, hlen] at h
      · by_cases hD : (if 0 < st.lastLength then st.lastLength - 1 else st.lastLength) = 0
        · by_cases hf : (hitPitch st ≤ 127 ∧ st.muted = false)
          · -- countdown off fires first, then the new note-on
            simp only [on16Callback] at h
            simp [hnl, hlen, hD, hf, hlp] at h
            obtain ⟨hst, hevs⟩ := h
            subst hevs
            simp at he
            rcases he with he | he
            · subst he
              exact Bool.noConfusion hOn
            · subst he
              rfl
          · -- countdown off fires, note-on suppressed: contradiction with hOn
            simp only [on16Callback] at h
            simp [hnl, hlen, hD, hf, hlp] at h
            obtain ⟨hst, hevs⟩ := h
            subst hevs
            simp at he
            subst he
            exact Bool.noConfusion hOn
        · by_cases hf : (hitPitch st ≤ 127 ∧ st.muted = false)
          · -- previous note still sounding at the hit: off emitted there, then on
            simp only [on16Callback] at h
            simp [hnl, hlen, hD, hf, hlp] at h
            obtain ⟨hst, hevs⟩ := h
            subst hevs
            simp at he
            rcases he with he | he
            · subst he
              exact Bool.noConfusion hOn
            · subst he
              rfl
          · -- hit with note-on suppressed: only the off is emitted
            simp only [on16Callback] at h
            simp [hnl, hlen, hD, hf, hlp] at h
            obtain ⟨hst, hevs⟩ := h
            subst hevs
            simp at he
            subst he
            exact Bool.noConfusion hOn

theorem noteOff_before_noteOn_witness :
    [MidiEv.noteOff 0 60 0, MidiEv.noteOn 0 65 100]
      = [MidiEv.noteOff 0 60 0, MidiEv.noteOn 0 65 100] :=
  noteOff_before_noteOn ⟨60, [5, 5, 5, 5], 0, 4, 2, 0, false, 60, 1⟩ true
    ⟨60, [5, 5, 5, 5], 1, 4, 2, 0, false, 65, 2⟩
    [MidiEv.noteOff 0 60 0, MidiEv.noteOn 0 65 100]
    (MidiEv.noteOn 0 65 100) (by decide) (by decide) (by decide) (by decide)

/-- C10: the tick handler is total only under `pitches_len > 0`.
Conjuncts: (1) `setPitchLength 0` leaves `pitches_len = 0`; (2) with
`pitches_len = 0` and the engine enabled (`noteLength ≠ 0`), a hit tick
reaches `(pitches_idx + 1) % pitches_len` with a zero divisor (modelled as
`none`, undefined behavior in C); (3) with `pitches_len > 0` and the cursor
in range, every tick is total and the cursor stays in
`[0, pitches_len)`. -/
theorem tick_total_iff_pitches_len_pos :
    (∀ (st : PEState) (rnd : Nat → Nat), (setPitchLength st 0 rnd).pitches_len = 0)
    ∧ (∀ st : PEState, st.pitches_len = 0 → st.noteLength ≠ 0 →
        on16Callback st true = none)
    ∧ (∀ (st : PEState) (hit : Bool), 0 < st.pitches_len →
        st.pitches_idx < st.pitches_len →
        ∃ st2 evs, on16Callback st hit = some (st2, evs)
          ∧ st2.pitches_idx < st2.pitches_len
          ∧ st2.pitches_len = st.pitches_len) := by
  refine ⟨fun st rnd => rfl, ?_, ?_⟩
  · intro st h0 hnl
    simp [on16Callback, hnl, h0]
  · intro st hit hpos hidx
    have hne : st.pitches_len ≠ 0 := by omega
    obtain ⟨⟨st2, evs⟩, hsome⟩ :=
      Option.isSome_iff_exists.mp (on16Callback_isSome st hit hne)
    obtain ⟨hlen, hidx2⟩ := on16Callback_pitches st hit st2 evs hsome
    refine ⟨st2, evs, hsome, ?_, hlen⟩
    rcases hidx2 with h | h
    · rw [hlen, h]
      exact hidx
    · rw [hlen, h]
      exact Nat.mod_lt _ hpos

theorem tick_total_iff_pitches_len_pos_witness :
    on16Callback ⟨60, [], 0, 0, 1, 0, false, 255, 0⟩ true = none :=
  tick_total_iff_pitches_len_pos.2.1 ⟨60, [], 0, 0, 1, 0, false, 255, 0⟩ rfl
    (by decide)

end PitchEuclid
